import Mathlib

/-!
# tabbed: client registry, selection state machine and tab-bar layout

A shallow embedding of the parts of `tabbed.c` that own the ordered client
array (`clients`, `nclients`), the focus indices (`sel`, `lastsel`,
`nextfocus`) and the tab-bar geometry (`getfirsttab`, `drawbar`).

Conventions of the embedding.

* A `Window` is the X handle stored in `Client.win`.  The registry is the
  list of the handles of `clients[0] .. clients[nclients-1]`; `nclients` is
  the length of that list.  The other `Client` fields (`name`, `tabx`,
  `mapped`, `closed`) and every Xlib call only feed the display and are not
  read back by the index bookkeeping, so they are left out of `State`.
* C `int` values are `Int`; the arithmetic below agrees with the C program
  whenever no signed overflow happens.  `/` and `%` of C are `Int.tdiv` and
  `Int.tmod`.
* `while`/`for` loops whose trip count is not bounded by the code itself take
  a fuel argument and answer `Fault.outOfFuel` when it is used up; an array
  access outside `0 .. nclients-1` answers `Fault.outOfBounds`.
* `foreground` and `tabwidth` come from `config.h`, and `TEXTW(before)`,
  `TEXTW(after)` from the font metrics; they are parameters.
-/

namespace Tabbed

/-- Handle of an X window (`Window` in Xlib). -/
abbrev Window := Nat

/-- Ways in which a run of the C code fails to produce a state. -/
inductive Fault where
  | outOfFuel
  | outOfBounds
  deriving DecidableEq, Repr

/-- Global variables `clients`/`nclients`, `sel`, `lastsel`, `nextfocus`. -/
structure State where
  clients : List Window
  sel : Int
  lastsel : Int
  nextfocus : Bool
  deriving DecidableEq, Repr

/-- The global `nclients`: number of entries of `clients`. -/
def State.nclients (s : State) : Int := (s.clients.length : Int)

/-- State left by `setup`: `nclients = 0, sel = -1, lastsel = -1` and
`nextfocus = foreground` (the closing `focus(-1)` returns at once). -/
def init (foreground : Bool) : State :=
  { clients := [], sel := -1, lastsel := -1, nextfocus := foreground }

/-- Loop `for(i = 0; i < nclients; i++) if(clients[i]->win == w) return i;`
of `getclient`, started at index `i`. -/
def getclientFrom (w : Window) : List Window → Int → Int
  | [], _ => -1
  | x :: rest, i => if x = w then i else getclientFrom w rest (i + 1)

/-- Port of `getclient`: first index holding `w`, or `-1`. -/
def getclient (s : State) (w : Window) : Int :=
  getclientFrom w s.clients 0

/-- Port of `focus(c)`, restricted to the globals. -/
def focus (c : Int) (s : State) : State :=
  if s.nclients = 0 then s
  else if c < 0 ∨ c ≥ s.nclients then s
  else { s with lastsel := if s.sel ≠ c then s.sel else s.lastsel, sel := c }

/-- Port of `move`: `if(arg->i >= 0 && arg->i < nclients) focus(arg->i);`. -/
def move (i : Int) (s : State) : State :=
  if i ≥ 0 ∧ i < s.nclients then focus i s else s

/-- Port of `manage(w)`: the new client is put at `clients[0]` after the old
entries were moved up by `memmove`, then
`focus((nextfocus)? 0 : ((sel < 0)? 0 : sel)); nextfocus = foreground;`. -/
def manage (foreground : Bool) (w : Window) (s : State) : State :=
  let s1 : State := { s with clients := w :: s.clients }
  let s2 := focus (if s1.nextfocus then 0 else (if s1.sel < 0 then 0 else s1.sel)) s1
  { s2 with nextfocus := foreground }

/-- The three array updates of `unmanage(c)`: `c == 0` moves
`clients[1..]` down to `clients[0..]`, `c == nclients - 1` shrinks the array
by one, anything else moves `clients[c+1..]` down to `clients[c..]`. -/
def removeAt (l : List Window) (c : Int) : List Window :=
  if c = 0 then l.tail
  else if c = (l.length : Int) - 1 then l.dropLast
  else l.take c.toNat ++ l.drop (c.toNat + 1)

/-- Block of `unmanage` after the array update:
`if(c == lastsel) lastsel = -1; else if(lastsel > c) lastsel--;`. -/
def fixLastsel (c : Int) (s : State) : State :=
  if c = s.lastsel then { s with lastsel := -1 }
  else if s.lastsel > c then { s with lastsel := s.lastsel - 1 }
  else s

/-- Block `if(sel > c && c > 0) { sel--; lastsel = -1; }` of `unmanage`. -/
def shiftSel (c : Int) (s : State) : State :=
  if s.sel > c ∧ c > 0 then { s with sel := s.sel - 1, lastsel := -1 }
  else s

/-- Block `if(c == nclients && nclients > 0) sel = nclients - 1;` of
`unmanage` (`nclients` is already decremented here). -/
def clampSel (c : Int) (s : State) : State :=
  if c = s.nclients ∧ s.nclients > 0 then { s with sel := s.nclients - 1 }
  else s

/-- Block `if(lastsel > -1) focus(lastsel); else focus(sel);` of `unmanage`. -/
def refocus (s : State) : State :=
  if s.lastsel > -1 then focus s.lastsel s else focus s.sel s

/-- Port of `unmanage(c)`, restricted to the globals. -/
def unmanage (c : Int) (s : State) : State :=
  if c < 0 ∨ c ≥ s.nclients then s
  else if s.nclients = 0 then s
  else
    refocus (clampSel c (shiftSel c (fixLastsel c
      { s with clients := removeAt s.clients c })))

/-- Loop `while(c >= nclients) c -= nclients;`. -/
def wrapDown (nclients : Int) : Nat → Int → Except Fault Int
  | 0, _ => .error .outOfFuel
  | fuel + 1, c =>
    if c ≥ nclients then wrapDown nclients fuel (c - nclients) else .ok c

/-- Loop `while(c < 0) c += nclients;`. -/
def wrapUp (nclients : Int) : Nat → Int → Except Fault Int
  | 0, _ => .error .outOfFuel
  | fuel + 1, c =>
    if c < 0 then wrapUp nclients fuel (c + nclients) else .ok c

/-- The two wrap-around loops of `rotate` and `movetab`, one after the other. -/
def wrap (nclients : Int) (fuel : Nat) (c : Int) : Except Fault Int :=
  match wrapDown nclients fuel c with
  | .error e => .error e
  | .ok c1 => wrapUp nclients fuel c1

/-- Port of `rotate`; `i` is `arg->i`. -/
def rotate (fuel : Nat) (i : Int) (s : State) : Except Fault State :=
  if s.sel < 0 then .ok s
  else if i = 0 then
    (if s.lastsel > -1 then .ok (focus s.lastsel s) else .ok s)
  else if s.sel > -1 then
    match wrap s.nclients fuel (s.sel + i) with
    | .error e => .error e
    | .ok nsel => .ok (focus nsel s)
  else .ok s

/-- Read of `clients[i]`. -/
def clientAt (l : List Window) (i : Int) : Except Fault Window :=
  if i < 0 then .error .outOfBounds
  else match l[i.toNat]? with
    | some w => .ok w
    | none => .error .outOfBounds

/-- Port of `movetab`; `i` is `arg->i`. -/
def movetab (fuel : Nat) (i : Int) (s : State) : Except Fault State :=
  if s.sel < 0 ∨ i = 0 then .ok s
  else
    match wrap s.nclients fuel (s.sel + i) with
    | .error e => .error e
    | .ok c =>
      match clientAt s.clients c, clientAt s.clients s.sel with
      | .ok new, .ok cur =>
        .ok { s with clients := (s.clients.set c.toNat cur).set s.sel.toNat new, sel := c }
      | _, _ => .error .outOfBounds

/-- Port of `createnotify`; `win` is the frame's own window. -/
def createnotify (foreground : Bool) (win w : Window) (s : State) : State :=
  if w ≠ win ∧ getclient s w < 0 then manage foreground w s else s

/-- Port of `maprequest`. -/
def maprequest (foreground : Bool) (w : Window) (s : State) : State :=
  if getclient s w > -1 then manage foreground w s else s

/-- Port of `destroynotify`. -/
def destroynotify (w : Window) (s : State) : State :=
  let c := getclient s w
  if c > -1 then unmanage c s else s

/-- Operations of the selection state machine, as the key and button
handlers and `createnotify`/`destroynotify` invoke them. -/
inductive Op where
  | manage (w : Window)
  | focus (c : Int)
  | move (i : Int)
  | rotate (i : Int)
  | movetab (i : Int)
  | unmanage (c : Int)
  deriving DecidableEq, Repr

/-- One operation applied to the globals. -/
def step (foreground : Bool) (fuel : Nat) : Op → State → Except Fault State
  | .manage w, s => .ok (manage foreground w s)
  | .focus c, s => .ok (focus c s)
  | .move i, s => .ok (move i s)
  | .rotate i, s => rotate fuel i s
  | .movetab i, s => movetab fuel i s
  | .unmanage c, s => .ok (unmanage c s)

/-- A sequence of operations, left to right; stops at the first fault. -/
def run (foreground : Bool) (fuel : Nat) : List Op → State → Except Fault State
  | [], s => .ok s
  | op :: ops, s =>
    match step foreground fuel op s with
    | .error e => .error e
    | .ok s1 => run foreground fuel ops s1

/-- The three X events that add or drop clients. -/
inductive Event where
  | createnotify (w : Window)
  | maprequest (w : Window)
  | destroynotify (w : Window)
  deriving DecidableEq, Repr

/-- The `handler[ev.type]` dispatch of `run` for these events. -/
def handle (foreground : Bool) (win : Window) : Event → State → State
  | .createnotify w, s => createnotify foreground win w s
  | .maprequest w, s => maprequest foreground w s
  | .destroynotify w, s => destroynotify w s

/-- The event loop on a finite queue of events. -/
def dispatch (foreground : Bool) (win : Window) : List Event → State → State
  | [], s => s
  | ev :: evs, s => dispatch foreground win evs (handle foreground win ev s)

/-- Insertions and removals on the registry. -/
inductive RegOp where
  | insert (w : Window)
  | remove (c : Int)
  deriving DecidableEq, Repr

/-- A sequence of `manage`/`unmanage` calls. -/
def runReg (foreground : Bool) : List RegOp → State → State
  | [], s => s
  | .insert w :: ops, s => runReg foreground ops (manage foreground w s)
  | .remove c :: ops, s => runReg foreground ops (unmanage c s)

/-- Order the specification prescribes: the most recent insertion goes to the
front, a removal deletes one position and keeps the relative order of the
survivors (a stale position removes nothing). -/
def specOrder : List RegOp → List Window → List Window
  | [], l => l
  | .insert w :: ops, l => specOrder ops (w :: l)
  | .remove c :: ops, l => specOrder ops (if c < 0 then l else l.eraseIdx c.toNat)

/-- Window shown by the selected tab: `clients[sel]` when that entry exists. -/
def selected (s : State) : Option Window :=
  if s.sel < 0 then none else s.clients[s.sel.toNat]?

/-- Entry `clients[i]` when it exists. -/
def entry (s : State) (i : Int) : Option Window :=
  if i < 0 then none else s.clients[i.toNat]?

/-- The same `rotate` call repeated `k` times. -/
def rotateTimes (fuel : Nat) (i : Int) : Nat → State → Except Fault State
  | 0, s => .ok s
  | k + 1, s =>
    match rotate fuel i s with
    | .error e => .error e
    | .ok s1 => rotateTimes fuel i k s1

/-- Loop of `getfirsttab`:
`for(; (c * tabwidth) > (ww / 2) && (n * tabwidth) > ww; c--, n--, fc++);`. -/
def firsttabLoop (tabwidth ww : Int) : Nat → Int → Int → Int → Except Fault Int
  | 0, _, _, _ => .error .outOfFuel
  | fuel + 1, c, n, fc =>
    if c * tabwidth > Int.tdiv ww 2 ∧ n * tabwidth > ww then
      firsttabLoop tabwidth ww fuel (c - 1) (n - 1) (fc + 1)
    else .ok fc

/-- Port of `getfirsttab`. -/
def getfirsttab (tabwidth ww : Int) (fuel : Nat) (nclients sel : Int) :
    Except Fault Int :=
  if sel < 0 then .ok (-1)
  else if nclients * tabwidth > ww then firsttabLoop tabwidth ww fuel sel nclients 0
  else .ok 0

/-- One `drawtext(clients[c]->name, col)` call of the tab loop: the client
index and the values of `dc.x` and `dc.w` at the call. -/
structure Tab where
  c : Int
  x : Int
  w : Int
  deriving DecidableEq, Repr

/-- What `drawbar` draws: whether the `after` and `before` indicators were
drawn, and the tabs in drawing order. -/
structure Bar where
  after : Bool
  before : Bool
  tabs : List Tab
  deriving DecidableEq, Repr

/-- Tab loop of `drawbar`:
`for(c = ...; c < nclients && dc.x < width; c++)`, started at `c` with
`dc.x = x`. -/
def drawTabs (tabwidth nclients sel n width : Int) :
    Nat → Int → Int → Except Fault (List Tab)
  | 0, _, _ => .error .outOfFuel
  | fuel + 1, c, x =>
    if c < nclients ∧ x < width then
      let w : Int :=
        if c = sel then
          (if n * tabwidth > width then tabwidth + Int.tmod width tabwidth
           else width - (n - 1) * tabwidth)
        else tabwidth
      match drawTabs tabwidth nclients sel n width fuel (c + 1) (x + w) with
      | .error e => .error e
      | .ok rest => .ok ({ c := c, x := x, w := w } :: rest)
    else .ok []

/-- Port of `drawbar` for the geometry it computes; `textwBefore` and
`textwAfter` are `TEXTW(before)` and `TEXTW(after)`. -/
def drawbar (tabwidth textwBefore textwAfter ww : Int) (fuel : Nat)
    (nclients sel : Int) : Except Fault Bar :=
  if nclients = 0 then .ok { after := false, before := false, tabs := [] }
  else
    match getfirsttab tabwidth ww fuel nclients sel with
    | .error e => .error e
    | .ok fc =>
      let n : Int := if fc > -1 then nclients - fc else 0
      let after : Bool := decide (n * tabwidth > ww)
      let width1 : Int := if after then ww - textwAfter else ww
      let before : Bool := decide (fc > 0)
      let x0 : Int := if before then textwBefore else 0
      let width2 : Int := if before then width1 - textwBefore else width1
      match drawTabs tabwidth nclients sel n width2 fuel (if fc > 0 then fc else 0) x0 with
      | .error e => .error e
      | .ok tabs => .ok { after := after, before := before, tabs := tabs }

/-- Sum of the widths `dc.w` of the drawn tabs. -/
def Bar.tabsWidth (b : Bar) : Int := (b.tabs.map Tab.w).sum

/-! ## Registry: `manage` and `unmanage` as list operations -/

theorem removeAt_eq_eraseIdx (l : List Window) (c : Int)
    (h0 : 0 ≤ c) (h1 : c < (l.length : Int)) :
    removeAt l c = l.eraseIdx c.toNat := by
  unfold removeAt
  split_ifs with hz hl
  · subst hz
    simp
  · have hc : c.toNat + 1 = l.length := by omega
    exact List.dropLast_eq_eraseIdx hc
  · exact (List.eraseIdx_eq_take_drop_succ l c.toNat).symm

theorem focus_clients (c : Int) (s : State) : (focus c s).clients = s.clients := by
  unfold focus
  split_ifs <;> rfl

theorem focus_nclients (c : Int) (s : State) : (focus c s).nclients = s.nclients := by
  simp [State.nclients, focus_clients]

theorem manage_clients (fg : Bool) (w : Window) (s : State) :
    (manage fg w s).clients = w :: s.clients := by
  simp [manage, focus_clients]

theorem fixLastsel_clients (c : Int) (s : State) :
    (fixLastsel c s).clients = s.clients := by
  unfold fixLastsel
  split_ifs <;> rfl

theorem shiftSel_clients (c : Int) (s : State) :
    (shiftSel c s).clients = s.clients := by
  unfold shiftSel
  split_ifs <;> rfl

theorem clampSel_clients (c : Int) (s : State) :
    (clampSel c s).clients = s.clients := by
  unfold clampSel
  split_ifs <;> rfl

theorem refocus_clients (s : State) : (refocus s).clients = s.clients := by
  unfold refocus
  split_ifs <;> exact focus_clients _ _

theorem unmanage_valid (c : Int) (s : State)
    (h0 : 0 ≤ c) (h1 : c < s.nclients) :
    unmanage c s = refocus (clampSel c (shiftSel c (fixLastsel c
      { s with clients := removeAt s.clients c }))) := by
  have hn : s.nclients ≠ 0 := by omega
  have hg : ¬ (c < 0 ∨ c ≥ s.nclients) := by omega
  unfold unmanage
  rw [if_neg hg, if_neg hn]

theorem unmanage_clients_valid (c : Int) (s : State)
    (h0 : 0 ≤ c) (h1 : c < s.nclients) :
    (unmanage c s).clients = removeAt s.clients c := by
  rw [unmanage_valid c s h0 h1, refocus_clients, clampSel_clients, shiftSel_clients,
    fixLastsel_clients]

theorem unmanage_clients (c : Int) (s : State) :
    (unmanage c s).clients = if c < 0 then s.clients else s.clients.eraseIdx c.toNat := by
  by_cases hneg : c < 0
  · have hg : c < 0 ∨ c ≥ s.nclients := Or.inl hneg
    simp [unmanage, hg, hneg]
  · rw [if_neg hneg]
    by_cases hlt : c < s.nclients
    · rw [unmanage_clients_valid c s (by omega) hlt]
      exact removeAt_eq_eraseIdx s.clients c (by omega) hlt
    · have hg : c < 0 ∨ c ≥ s.nclients := Or.inr (by omega)
      have hlen : s.clients.length ≤ c.toNat := by
        unfold State.nclients at hlt
        omega
      simp [unmanage, hg, List.eraseIdx_of_length_le hlen]

theorem runReg_clients (fg : Bool) (ops : List RegOp) :
    ∀ s : State, (runReg fg ops s).clients = specOrder ops s.clients := by
  induction ops with
  | nil => intro s; rfl
  | cons op ops ih =>
    intro s
    cases op with
    | insert w => simp [runReg, specOrder, ih, manage_clients]
    | remove c => simp [runReg, specOrder, ih, unmanage_clients]

theorem removeAt_length (l : List Window) (c : Int)
    (h0 : 0 ≤ c) (h1 : c < (l.length : Int)) :
    ((removeAt l c).length : Int) = (l.length : Int) - 1 := by
  rw [removeAt_eq_eraseIdx l c h0 h1, List.length_eraseIdx_of_lt (by omega)]
  omega

/-- Index selected by `unmanage sel` when `lastsel` is unset (or equal to
`sel`): the slot stays, except that removing the last of several clients
selects the new last slot. -/
theorem unmanage_sel_of_no_lastsel (l : List Window) (sel lastsel : Int) (nf : Bool)
    (hsel0 : 0 ≤ sel) (hsel1 : sel < (l.length : Int))
    (hlast : lastsel = -1 ∨ lastsel = sel) :
    (unmanage sel ⟨l, sel, lastsel, nf⟩).sel
      = if sel = (l.length : Int) - 1 ∧ 2 ≤ (l.length : Int)
        then (l.length : Int) - 2 else sel := by
  have hlen := removeAt_length l sel hsel0 hsel1
  rw [unmanage_valid sel ⟨l, sel, lastsel, nf⟩ hsel0 hsel1]
  simp only [fixLastsel]
  split_ifs <;>
  simp only [shiftSel] <;> split_ifs <;>
  simp only [clampSel, State.nclients, hlen] <;> split_ifs <;>
  simp only [refocus] <;> split_ifs <;>
  simp only [focus, State.nclients, hlen] <;> split_ifs <;> simp only [] <;> omega

/-- Index selected by `unmanage sel` when `lastsel` is another valid index:
the slot that the client of `lastsel` occupies after the removal. -/
theorem unmanage_sel_of_lastsel (l : List Window) (sel lastsel : Int) (nf : Bool)
    (hsel0 : 0 ≤ sel) (hsel1 : sel < (l.length : Int))
    (hl0 : 0 ≤ lastsel) (hl1 : lastsel < (l.length : Int)) (hne : lastsel ≠ sel) :
    (unmanage sel ⟨l, sel, lastsel, nf⟩).sel
      = if lastsel > sel then lastsel - 1 else lastsel := by
  have hlen := removeAt_length l sel hsel0 hsel1
  rw [unmanage_valid sel ⟨l, sel, lastsel, nf⟩ hsel0 hsel1]
  simp only [fixLastsel]
  split_ifs <;>
  simp only [shiftSel] <;> split_ifs <;>
  simp only [clampSel, State.nclients, hlen] <;> split_ifs <;>
  simp only [refocus] <;> split_ifs <;>
  simp only [focus, State.nclients, hlen] <;> split_ifs <;> simp only [] <;> omega

theorem selected_eq (l : List Window) (sel lastsel : Int) (nf : Bool) (h : 0 ≤ sel) :
    selected ⟨l, sel, lastsel, nf⟩ = l[sel.toNat]? := by
  have : ¬ sel < 0 := by omega
  simp [selected, this]

theorem entry_eq (s : State) (i : Int) (h : 0 ≤ i) :
    entry s i = s.clients[i.toNat]? := by
  have : ¬ i < 0 := by omega
  simp [entry, this]

theorem selected_eq_entry (s : State) : selected s = entry s s.sel := rfl

/-! ## The wrap-around loops -/

theorem wrapDown_eq (n : Int) :
    ∀ (fuel : Nat) (c : Int), 0 < fuel → c < (fuel : Int) * n →
      wrapDown n fuel c = .ok (if c ≥ n then c % n else c) := by
  intro fuel
  induction fuel with
  | zero => intro c h; omega
  | succ k ih =>
    intro c _ hlt
    unfold wrapDown
    by_cases hc : c ≥ n
    · have hlt2 : c - n < (k : Int) * n := by
        push_cast at hlt
        linarith
      have hk : 0 < k := by
        rcases Nat.eq_zero_or_pos k with h | h
        · subst h
          simp at hlt2
          omega
        · exact h
      rw [if_pos hc, if_pos hc, ih (c - n) hk hlt2]
      have hmod : (c - n) % n = c % n := by
        have h := @Int.add_emod_self (c - n) n
        rw [Int.sub_add_cancel] at h
        exact h.symm
      by_cases h2 : c - n ≥ n
      · rw [if_pos h2, hmod]
      · rw [if_neg h2, ← hmod, Int.emod_eq_of_lt (by omega) (by omega)]
    · rw [if_neg hc, if_neg hc]

theorem wrapUp_eq (n : Int) :
    ∀ (fuel : Nat) (c : Int), 0 < fuel → -c ≤ ((fuel : Int) - 1) * n →
      wrapUp n fuel c = .ok (if c < 0 then c % n else c) := by
  intro fuel
  induction fuel with
  | zero => intro c h; omega
  | succ k ih =>
    intro c _ hle
    unfold wrapUp
    by_cases hc : c < 0
    · have hle1 : -c ≤ (k : Int) * n := by
        push_cast at hle
        linarith
      have hk : 0 < k := by
        rcases Nat.eq_zero_or_pos k with h | h
        · subst h
          simp at hle1
          omega
        · exact h
      have hle2 : -(c + n) ≤ ((k : Int) - 1) * n := by linarith
      rw [if_pos hc, if_pos hc, ih (c + n) hk hle2]
      have hmod : (c + n) % n = c % n := Int.add_emod_self
      by_cases h2 : c + n < 0
      · rw [if_pos h2, hmod]
      · rw [if_neg h2, ← hmod, Int.emod_eq_of_lt (by omega) (by omega)]
    · rw [if_neg hc, if_neg hc]

/-- With enough fuel the two loops compute the mathematical modulus. -/
theorem wrap_eq (n : Int) (hn : 0 < n) (fuel : Nat) (c : Int) (h0 : 0 < fuel)
    (h1 : c < (fuel : Int) * n) (h2 : -c ≤ ((fuel : Int) - 1) * n) :
    wrap n fuel c = .ok (c % n) := by
  unfold wrap
  rw [wrapDown_eq n fuel c h0 h1]
  simp only []
  have hlt := Int.emod_lt_of_pos c hn
  have hge := Int.emod_nonneg c (by omega : n ≠ 0)
  have hf : (0 : Int) ≤ ((fuel : Int) - 1) * n :=
    mul_nonneg (by omega) (by omega)
  by_cases hc : c ≥ n
  · rw [if_pos hc, wrapUp_eq n fuel _ h0 (by omega), if_neg (by omega)]
  · rw [if_neg hc, wrapUp_eq n fuel _ h0 h2]
    by_cases hneg : c < 0
    · rw [if_pos hneg]
    · rw [if_neg hneg, Int.emod_eq_of_lt (by omega) (by omega)]

/-- Fuel above `|i|` is enough to wrap `sel + i` for a valid `sel`. -/
theorem wrap_step (n : Int) (fuel : Nat) (sel i : Int)
    (hsel0 : 0 ≤ sel) (hsel1 : sel < n) (hfuel : i.natAbs < fuel) :
    wrap n fuel (sel + i) = .ok ((sel + i) % n) := by
  have hn : 0 < n := by omega
  have hf : (0 : Int) ≤ ((fuel : Int) - 1) * (n - 1) :=
    mul_nonneg (by omega) (by omega)
  have hexp : ((fuel : Int) - 1) * (n - 1) = (fuel : Int) * n - (fuel : Int) - n + 1 := by
    ring
  have hexp2 : ((fuel : Int) - 1) * n = (fuel : Int) * n - n := by ring
  apply wrap_eq n hn fuel (sel + i) (by omega)
  · omega
  · omega

/-- Fuel `2` is enough to wrap `sel + 1` and `sel - 1` for a valid `sel`. -/
theorem wrap_unit (n : Int) (fuel : Nat) (sel i : Int)
    (hsel0 : 0 ≤ sel) (hsel1 : sel < n) (hfuel : 2 ≤ fuel) (hi : i = 1 ∨ i = -1) :
    wrap n fuel (sel + i) = .ok ((sel + i) % n) := by
  have hn : 0 < n := by omega
  have hf : (0 : Int) ≤ ((fuel : Int) - 2) * n :=
    mul_nonneg (by omega) (by omega)
  have hexp : ((fuel : Int) - 2) * n = (fuel : Int) * n - 2 * n := by ring
  have hexp2 : ((fuel : Int) - 1) * n = (fuel : Int) * n - n := by ring
  apply wrap_eq n hn fuel (sel + i) (by omega)
  · omega
  · omega

theorem neg_lt_tmod (c n : Int) (hn : 0 < n) : -n < Int.tmod c n := by
  obtain ⟨k, rfl⟩ := Int.eq_ofNat_of_zero_le (le_of_lt hn)
  cases c with
  | ofNat m =>
    have h : 0 ≤ (Int.ofNat m).tmod (k : Int) :=
      Int.tmod_nonneg (k : Int) (Int.ofNat_nonneg m)
    omega
  | negSucc m =>
    show -(k : Int) < -((Nat.succ m % k : Nat) : Int)
    have hk : 0 < k := by omega
    have h := Nat.mod_lt (Nat.succ m) hk
    omega

/-- The C expression `((c % n) + n) % n` is the mathematical modulus. -/
theorem tmod_formula (c n : Int) (hn : 0 < n) :
    Int.tmod (Int.tmod c n + n) n = c % n := by
  have hlt := Int.tmod_lt_of_pos c hn
  have hdec := Int.tmod_add_tdiv c n
  have hgt := neg_lt_tmod c n hn
  rw [Int.tmod_eq_emod (by omega) (by omega), Int.add_emod_self]
  conv_rhs => rw [← hdec]
  rw [Int.add_mul_emod_self_left]

/-! ## `focus`, `rotate`, `movetab` on a valid selection -/

theorem focus_valid (c : Int) (s : State) (h0 : 0 ≤ c) (h1 : c < s.nclients) :
    focus c s = { s with lastsel := if s.sel ≠ c then s.sel else s.lastsel, sel := c } := by
  have hn : s.nclients ≠ 0 := by omega
  have hg : ¬ (c < 0 ∨ c ≥ s.nclients) := by omega
  unfold focus
  rw [if_neg hn, if_neg hg]

theorem rotate_valid (fuel : Nat) (i : Int) (s : State)
    (hsel0 : 0 ≤ s.sel) (hi : i ≠ 0)
    (hw : wrap s.nclients fuel (s.sel + i) = .ok ((s.sel + i) % s.nclients)) :
    rotate fuel i s = .ok (focus ((s.sel + i) % s.nclients) s) := by
  have h1 : ¬ s.sel < 0 := by omega
  have h2 : s.sel > -1 := by omega
  unfold rotate
  rw [if_neg h1, if_neg hi, if_pos h2, hw]

theorem emod_bounds (c n : Int) (hn : 0 < n) : 0 ≤ c % n ∧ c % n < n :=
  ⟨Int.emod_nonneg c (by omega), Int.emod_lt_of_pos c hn⟩

/-- One `rotate(±1)` on a valid selection. -/
theorem rotate_unit (fuel : Nat) (i : Int) (s : State)
    (hsel0 : 0 ≤ s.sel) (hsel1 : s.sel < s.nclients) (hfuel : 2 ≤ fuel)
    (hi : i = 1 ∨ i = -1) :
    ∃ s1, rotate fuel i s = .ok s1 ∧ s1.sel = (s.sel + i) % s.nclients ∧
      s1.clients = s.clients := by
  have hb := emod_bounds (s.sel + i) s.nclients (by omega)
  have hw := wrap_unit s.nclients fuel s.sel i hsel0 hsel1 hfuel hi
  refine ⟨_, rotate_valid fuel i s hsel0 (by omega) hw, ?_, focus_clients _ _⟩
  rw [focus_valid _ s hb.1 hb.2]

/-- The selection after `k` calls of `rotate(+1)`. -/
theorem rotateTimes_unit (fuel : Nat) (hfuel : 2 ≤ fuel) :
    ∀ (k : Nat) (s : State), 0 ≤ s.sel → s.sel < s.nclients →
      ∃ s1, rotateTimes fuel 1 k s = .ok s1 ∧
        s1.sel = (s.sel + (k : Int)) % s.nclients ∧ s1.clients = s.clients := by
  intro k
  induction k with
  | zero =>
    intro s h0 h1
    refine ⟨s, rfl, ?_, rfl⟩
    simp [Int.emod_eq_of_lt h0 h1]
  | succ k ih =>
    intro s h0 h1
    obtain ⟨s1, hr, hsel, hcl⟩ := rotate_unit fuel 1 s h0 h1 hfuel (Or.inl rfl)
    have hb := emod_bounds (s.sel + 1) s.nclients (by omega)
    have hn1 : s1.nclients = s.nclients := by simp [State.nclients, hcl]
    obtain ⟨s2, hr2, hsel2, hcl2⟩ := ih s1 (by omega) (by omega)
    refine ⟨s2, ?_, ?_, by rw [hcl2, hcl]⟩
    · simp only [rotateTimes, hr, hr2]
    · rw [hsel2, hn1, hsel, Int.emod_add_emod]
      push_cast
      ring_nf


/-! ## `movetab` -/

theorem clientAt_valid (l : List Window) (i : Int) (h0 : 0 ≤ i) (h1 : i < (l.length : Int)) :
    ∃ w, l[i.toNat]? = some w ∧ clientAt l i = .ok w := by
  have hlt : i.toNat < l.length := by omega
  refine ⟨l[i.toNat], List.getElem?_eq_getElem hlt, ?_⟩
  unfold clientAt
  rw [if_neg (by omega), List.getElem?_eq_getElem hlt]

/-- Exchanging two entries twice gives the list back. -/
theorem swap_swap (l : List Window) (i j : Nat) (a b : Window)
    (ha : l[i]? = some a) (hb : l[j]? = some b) :
    (((l.set j a).set i b).set i a).set j b = l := by
  apply List.ext_getElem?
  intro k
  simp only [List.getElem?_set, List.length_set]
  have hi : i < l.length := by
    rcases Nat.lt_or_ge i l.length with h | h
    · exact h
    · rw [List.getElem?_eq_none h] at ha
      cases ha
  have hj : j < l.length := by
    rcases Nat.lt_or_ge j l.length with h | h
    · exact h
    · rw [List.getElem?_eq_none h] at hb
      cases hb
  by_cases hjk : j = k
  · subst hjk
    simp [hj, hb]
  · by_cases hik : i = k
    · subst hik
      simp [hjk, hi, ha]
    · simp [hjk, hik]

/-- One `movetab(i)` on a valid selection, `i ≠ 0`. -/
theorem movetab_valid (fuel : Nat) (i : Int) (s : State)
    (hsel0 : 0 ≤ s.sel) (hsel1 : s.sel < s.nclients) (hi : i ≠ 0)
    (hfuel : i.natAbs < fuel) :
    ∃ new cur, s.clients[((s.sel + i) % s.nclients).toNat]? = some new ∧
      s.clients[s.sel.toNat]? = some cur ∧
      movetab fuel i s = .ok { s with
        clients := (s.clients.set ((s.sel + i) % s.nclients).toNat cur).set s.sel.toNat new,
        sel := (s.sel + i) % s.nclients } := by
  have hb := emod_bounds (s.sel + i) s.nclients (by omega)
  have hw := wrap_step s.nclients fuel s.sel i hsel0 hsel1 hfuel
  obtain ⟨new, hnew, hcnew⟩ := clientAt_valid s.clients _ hb.1 hb.2
  obtain ⟨cur, hcur, hccur⟩ := clientAt_valid s.clients s.sel hsel0 hsel1
  refine ⟨new, cur, hnew, hcur, ?_⟩
  unfold movetab
  rw [if_neg (by omega), hw]
  simp only [hcnew, hccur]


/-! ## Tab-bar layout: `getfirsttab` and `drawbar` -/

/-- The `getfirsttab` loop returns once `c` has counted down to zero: fuel
above `c` is enough, and at most `c` tabs are scrolled out. -/
theorem firsttabLoop_ok (T W : Int) (hW : 0 ≤ W) :
    ∀ (fuel : Nat) (c m fc : Int), 0 ≤ c → c.toNat < fuel →
      ∃ r, firsttabLoop T W fuel c m fc = .ok r ∧ fc ≤ r ∧ r ≤ fc + c := by
  have h2 : Int.tdiv W 2 = W / 2 := Int.tdiv_eq_ediv hW (by omega)
  intro fuel
  induction fuel with
  | zero => intro c m fc _ h; omega
  | succ k ih =>
    intro c m fc hc hlt
    unfold firsttabLoop
    by_cases hcond : c * T > Int.tdiv W 2 ∧ m * T > W
    · rw [if_pos hcond]
      have hc1 : 1 ≤ c := by
        by_contra hlt1
        have hc0 : c = 0 := by omega
        rw [hc0, h2] at hcond
        omega
      obtain ⟨r, hr, h3, h4⟩ := ih (c - 1) (m - 1) (fc + 1) (by omega) (by omega)
      exact ⟨r, hr, by omega, by omega⟩
    · rw [if_neg hcond]
      exact ⟨fc, rfl, by omega, by omega⟩

/-- The `getfirsttab` loop when the selection is the last of `m` remaining
tabs: it stops as soon as the remaining tabs fit, and it scrolls at least one
tab out when they do not fit at the start. -/
theorem firsttabLoop_last (T W : Int) (hT : 0 < T) (hTW : T ≤ W) :
    ∀ (fuel : Nat) (m fc : Int), 1 ≤ m → m.toNat ≤ fuel →
      ∃ r, firsttabLoop T W fuel (m - 1) m fc = .ok r ∧ fc ≤ r ∧ r ≤ fc + (m - 1) ∧
        (m - (r - fc)) * T ≤ W ∧ (m * T > W → fc < r) := by
  have h2 : Int.tdiv W 2 = W / 2 := Int.tdiv_eq_ediv (by omega) (by omega)
  intro fuel
  induction fuel with
  | zero => intro m fc h1 h; omega
  | succ k ih =>
    intro m fc hm hlt
    unfold firsttabLoop
    by_cases hcond : (m - 1) * T > Int.tdiv W 2 ∧ m * T > W
    · rw [if_pos hcond]
      have hm2 : 2 ≤ m := by
        by_contra hlt2
        have hm1 : m = 1 := by omega
        rw [hm1, h2] at hcond
        omega
      obtain ⟨r, hr, h3, h4, h5, _⟩ := ih (m - 1) (fc + 1) (by omega) (by omega)
      refine ⟨r, hr, by omega, by omega, ?_, fun _ => by omega⟩
      have : m - (r - fc) = m - 1 - (r - (fc + 1)) := by ring
      rw [this]
      exact h5
    · rw [if_neg hcond]
      have hfit : m * T ≤ W := by
        by_contra hover
        have hover2 : m * T > W := by omega
        have hhalf : (m - 1) * T ≤ Int.tdiv W 2 := by
          by_contra hh
          exact hcond ⟨by omega, hover2⟩
        rw [h2] at hhalf
        have hexp : m * T = (m - 1) * T + T := by ring
        have hlt1 : (m - 1) * T < 1 * T := by omega
        have hm1 : m - 1 < 1 := lt_of_mul_lt_mul_right hlt1 (by omega)
        have hmeq : m = 1 := by omega
        rw [hmeq] at hover2
        omega
      refine ⟨fc, rfl, by omega, by omega, ?_, fun h => by omega⟩
      have : m - (fc - fc) = m := by ring
      rw [this]
      exact hfit

/-- The tab loop of `drawbar` returns once `c` reaches `nclients`; every tab it
draws starts at or right of the start position and left of `width`. -/
theorem drawTabs_ok (T nclients sel n width : Int) (hT : 0 < T) :
    ∀ (fuel : Nat) (c x : Int), 0 ≤ x → (nclients - c).toNat < fuel →
      ∃ tabs, drawTabs T nclients sel n width fuel c x = .ok tabs ∧
        ∀ t ∈ tabs, x ≤ t.x ∧ t.x < width ∧ T ≤ t.w := by
  intro fuel
  induction fuel with
  | zero => intro c x _ h; omega
  | succ k ih =>
    intro c x hx hlt
    unfold drawTabs
    by_cases hcond : c < nclients ∧ x < width
    · rw [if_pos hcond]
      simp only []
      have hw : T ≤ (if c = sel then
          (if n * T > width then T + Int.tmod width T else width - (n - 1) * T)
          else T) := by
        split_ifs with h1 h2
        · have := Int.tmod_nonneg T (by omega : 0 ≤ width)
          omega
        · have : (n - 1) * T = n * T - T := by ring
          omega
        · exact le_refl T
      generalize (if c = sel then
          (if n * T > width then T + Int.tmod width T else width - (n - 1) * T)
          else T) = w at hw ⊢
      obtain ⟨rest, hr, hall⟩ := ih (c + 1) (x + w) (by omega) (by omega)
      rw [hr]
      refine ⟨_, rfl, ?_⟩
      intro t ht
      rcases List.mem_cons.mp ht with h | h
      · subst h
        exact ⟨le_refl _, hcond.2, hw⟩
      · have := hall t h
        exact ⟨by omega, this.2.1, this.2.2⟩
    · rw [if_neg hcond]
      exact ⟨[], rfl, by simp⟩


/-- Tab loop when everything fits, started right of the selected tab: the
remaining tabs are all drawn with width `T` and end exactly at `W`. -/
theorem drawTabs_fit_after (T W n sel : Int) (hT : 0 < T) :
    ∀ (fuel : Nat) (c : Int), sel < c → c ≤ n → (n - c).toNat < fuel →
      ∃ tabs, drawTabs T n sel n W fuel c (W - (n - c) * T) = .ok tabs ∧
        (tabs.map Tab.w).sum = (n - c) * T ∧ (tabs.length : Int) = n - c ∧
        ∀ t ∈ tabs, t.c ≠ sel := by
  intro fuel
  induction fuel with
  | zero => intro c _ _ h; omega
  | succ k ih =>
    intro c hsel hcn hlt
    unfold drawTabs
    by_cases hc : c < n
    · have hpos : 0 < (n - c) * T := mul_pos (by omega) hT
      rw [if_pos ⟨hc, by omega⟩, if_neg (by omega : ¬ c = sel)]
      simp only []
      obtain ⟨rest, hr, hsum, hlen, hall⟩ := ih (c + 1) (by omega) (by omega) (by omega)
      have hx : W - (n - c) * T + T = W - (n - (c + 1)) * T := by ring
      rw [hx, hr]
      refine ⟨_, rfl, ?_, ?_, ?_⟩
      · simp only [List.map_cons, List.sum_cons, hsum]
        ring
      · simp only [List.length_cons]
        push_cast
        omega
      · intro t ht
        rcases List.mem_cons.mp ht with h | h
        · subst h
          simp only []
          omega
        · exact hall t h
    · have hcn2 : c = n := by omega
      rw [if_neg (by omega)]
      refine ⟨[], rfl, ?_, ?_, by simp⟩
      · subst hcn2
        simp
      · simp
        omega

/-- Tab loop when everything fits, started at or left of the selected tab:
all remaining tabs are drawn, they end exactly at `W`, and the selected tab
spans `[sel * T, W - (n - 1 - sel) * T]`. -/
theorem drawTabs_fit_upto (T W n sel : Int) (hT : 0 < T) (hfit : n * T ≤ W)
    (hsel1 : sel < n) :
    ∀ (fuel : Nat) (c : Int), 0 ≤ c → c ≤ sel → (n - c).toNat < fuel →
      ∃ tabs, drawTabs T n sel n W fuel c (c * T) = .ok tabs ∧
        (tabs.map Tab.w).sum = W - c * T ∧ (tabs.length : Int) = n - c ∧
        (∀ t ∈ tabs, t.c = sel → t.x = sel * T ∧ t.w = W - (n - 1) * T) ∧
        (∃ t ∈ tabs, t.c = sel) := by
  intro fuel
  induction fuel with
  | zero => intro c _ _ h; omega
  | succ k ih =>
    intro c hc0 hcs hlt
    have hle : c * T ≤ (n - 1) * T := mul_le_mul_of_nonneg_right (by omega) (by omega)
    have hexp : (n - 1) * T = n * T - T := by ring
    unfold drawTabs
    rw [if_pos ⟨by omega, by omega⟩]
    by_cases hcsel : c = sel
    · rw [if_pos hcsel, if_neg (by omega)]
      simp only []
      obtain ⟨rest, hr, hsum, hlen, hall⟩ :=
        drawTabs_fit_after T W n sel hT k (c + 1) (by omega) (by omega) (by omega)
      have hx : c * T + (W - (n - 1) * T) = W - (n - (c + 1)) * T := by ring
      rw [hx, hr]
      refine ⟨_, rfl, ?_, ?_, ?_, ?_⟩
      · simp only [List.map_cons, List.sum_cons, hsum]
        ring
      · simp only [List.length_cons]
        push_cast
        omega
      · intro t ht hts
        rcases List.mem_cons.mp ht with h | h
        · subst h
          simp only []
          rw [hcsel]
          exact ⟨rfl, trivial⟩
        · exact absurd hts (hall t h)
      · exact ⟨_, List.mem_cons_self _ _, hcsel⟩
    · rw [if_neg hcsel]
      simp only []
      obtain ⟨rest, hr, hsum, hlen, hall, hex⟩ := ih (c + 1) (by omega) (by omega) (by omega)
      have hx : c * T + T = (c + 1) * T := by ring
      rw [hx, hr]
      refine ⟨_, rfl, ?_, ?_, ?_, ?_⟩
      · simp only [List.map_cons, List.sum_cons, hsum]
        ring
      · simp only [List.length_cons]
        push_cast
        omega
      · intro t ht hts
        rcases List.mem_cons.mp ht with h | h
        · subst h
          exact absurd hts hcsel
        · exact hall t h hts
      · obtain ⟨t, ht, hts⟩ := hex
        exact ⟨t, List.mem_cons_of_mem _ ht, hts⟩


/-- Shape of `drawbar` once `getfirsttab` has returned `fc ≥ 0`. -/
theorem drawbar_of_firsttab (T b a W : Int) (fuel : Nat) (n sel fc : Int)
    (hn : n ≠ 0) (hfc : 0 ≤ fc) (hg : getfirsttab T W fuel n sel = .ok fc)
    (tabs : List Tab)
    (ht : drawTabs T n sel (n - fc)
      ((if (n - fc) * T > W then W - a else W) - (if fc > 0 then b else 0))
      fuel fc (if fc > 0 then b else 0) = .ok tabs) :
    drawbar T b a W fuel n sel
      = .ok { after := decide ((n - fc) * T > W), before := decide (fc > 0), tabs := tabs } := by
  unfold drawbar
  rw [if_neg hn, hg]
  simp only []
  have h1 : fc > -1 := by omega
  simp only [if_pos h1, decide_eq_true_eq]
  by_cases hpos : fc > 0
  · simp only [if_pos hpos] at ht ⊢
    rw [ht]
  · have hz : fc = 0 := by omega
    subst hz
    simp only [if_neg hpos, sub_zero] at ht ⊢
    rw [ht]


/-- The tab loop of `drawbar` returns once `c` reaches `nclients`. -/
theorem drawTabs_returns (T nclients sel n width : Int) :
    ∀ (fuel : Nat) (c x : Int), (nclients - c).toNat < fuel →
      ∃ tabs, drawTabs T nclients sel n width fuel c x = .ok tabs := by
  intro fuel
  induction fuel with
  | zero => intro c x h; omega
  | succ k ih =>
    intro c x hlt
    unfold drawTabs
    by_cases hcond : c < nclients ∧ x < width
    · rw [if_pos hcond]
      simp only []
      obtain ⟨rest, hr⟩ := ih (c + 1) (x + (if c = sel then
          (if n * T > width then T + Int.tmod width T else width - (n - 1) * T)
          else T)) (by omega)
      rw [hr]
      exact ⟨_, rfl⟩
    · rw [if_neg hcond]
      exact ⟨[], rfl⟩

/-! ## `unmanage` of a client other than the selected one; empty registry -/

/-- Index selected by `unmanage c` for `c ≠ sel` with `lastsel` unset. -/
theorem unmanage_sel_of_other (l : List Window) (sel c : Int) (nf : Bool)
    (hsel0 : 0 ≤ sel) (hsel1 : sel < (l.length : Int))
    (hc0 : 0 ≤ c) (hc1 : c < (l.length : Int)) (hne : c ≠ sel) :
    (unmanage c ⟨l, sel, -1, nf⟩).sel
      = if c = (l.length : Int) - 1 then (l.length : Int) - 2
        else if sel > c ∧ c > 0 then sel - 1 else sel := by
  have hlen := removeAt_length l c hc0 hc1
  rw [unmanage_valid c ⟨l, sel, -1, nf⟩ hc0 hc1]
  simp only [fixLastsel]
  split_ifs <;>
  simp only [shiftSel] <;> split_ifs <;>
  simp only [clampSel, State.nclients, hlen] <;> split_ifs <;>
  simp only [refocus] <;> split_ifs <;>
  simp only [focus, State.nclients, hlen] <;> split_ifs <;> simp only [] <;> omega

/-- Removing a client strictly between the first and the last slot, other
than the selected one and with `lastsel` unset, keeps the selected client. -/
theorem unmanage_keeps_selected_between (l : List Window) (sel c : Int) (nf : Bool)
    (hsel0 : 0 ≤ sel) (hsel1 : sel < (l.length : Int))
    (hc0 : 0 < c) (hc1 : c < (l.length : Int) - 1) (hne : c ≠ sel) :
    selected (unmanage c ⟨l, sel, -1, nf⟩) = selected ⟨l, sel, -1, nf⟩ := by
  have hs := unmanage_sel_of_other l sel c nf hsel0 hsel1 (by omega) (by omega) hne
  have hcl : (unmanage c ⟨l, sel, -1, nf⟩).clients = l.eraseIdx c.toNat := by
    rw [unmanage_clients_valid c ⟨l, sel, -1, nf⟩ (by omega)
      (by simp only [State.nclients]; omega)]
    exact removeAt_eq_eraseIdx l c (by omega) (by omega)
  rw [if_neg (by omega)] at hs
  rw [selected_eq_entry, selected_eq_entry, hs]
  by_cases hgt : sel > c
  · rw [if_pos ⟨hgt, hc0⟩, entry_eq _ _ (by omega), entry_eq _ _ hsel0, hcl,
      List.getElem?_eraseIdx_of_ge _ _ _ (by omega)]
    have : (sel - 1).toNat + 1 = sel.toNat := by omega
    rw [this]
  · rw [if_neg (by omega), entry_eq _ _ hsel0, entry_eq _ _ hsel0, hcl,
      List.getElem?_eraseIdx_of_lt _ _ _ (by omega)]

/-- After `unmanage c` with `lastsel = c`, `lastsel` is unset. -/
theorem unmanage_lastsel_of_eq (l : List Window) (sel c : Int) (nf : Bool)
    (hc0 : 0 ≤ c) (hc1 : c < (l.length : Int)) :
    (unmanage c ⟨l, sel, c, nf⟩).lastsel = -1 := by
  have hlen := removeAt_length l c hc0 hc1
  rw [unmanage_valid c ⟨l, sel, c, nf⟩ hc0 hc1]
  simp only [fixLastsel]
  split_ifs <;>
  simp only [shiftSel] <;> split_ifs <;>
  simp only [clampSel, State.nclients, hlen] <;> split_ifs <;>
  simp only [refocus] <;> split_ifs <;>
  simp only [focus, State.nclients, hlen] <;> split_ifs <;> simp only [] <;> omega

/-- `rotate(0)` with `lastsel` unset returns the state unchanged. -/
theorem rotate_zero_of_no_lastsel (fuel : Nat) (s : State) (h : s.lastsel = -1) :
    rotate fuel 0 s = .ok s := by
  unfold rotate
  have hl : ¬ s.lastsel > -1 := by omega
  by_cases hs : s.sel < 0
  · rw [if_pos hs]
  · rw [if_neg hs, if_pos rfl, if_neg hl]

/-- With `nclients = 0` the loop `while(c >= nclients) c -= nclients;` never
leaves a non-negative `c`. -/
theorem wrapDown_zero (fuel : Nat) (c : Int) (hc : 0 ≤ c) :
    wrapDown 0 fuel c = .error .outOfFuel := by
  induction fuel with
  | zero => rfl
  | succ k ih =>
    unfold wrapDown
    rw [if_pos hc, sub_zero]
    exact ih

/-- With `nclients = 0` the loop `while(c < 0) c += nclients;` never leaves a
negative `c`. -/
theorem wrapUp_zero (fuel : Nat) (c : Int) (hc : c < 0) :
    wrapUp 0 fuel c = .error .outOfFuel := by
  induction fuel with
  | zero => rfl
  | succ k ih =>
    unfold wrapUp
    rw [if_pos hc, add_zero]
    exact ih

/-- With `nclients = 0` the two loops return for no starting value. -/
theorem wrap_zero (fuel : Nat) (c : Int) : wrap 0 fuel c = .error .outOfFuel := by
  unfold wrap
  by_cases hc : 0 ≤ c
  · rw [wrapDown_zero fuel c hc]
  · cases fuel with
    | zero => rfl
    | succ k =>
      have h1 : wrapDown 0 (k + 1) c = .ok c := by
        unfold wrapDown
        rw [if_neg (by omega)]
      rw [h1]
      exact wrapUp_zero (k + 1) c (by omega)

/-! ## Claims -/

/-- C1 (selection validity), evaluated on the code, for either value of
`foreground`: after the only client is managed and unmanaged the registry is
empty but `sel` is still `0`, not `-1`; and after
`manage 1, manage 2, move 1, unmanage 0` one client is left while `sel` is
`1`, outside `0 .. nclients-1`. -/
theorem C1_sel_stale_after_unmanage :
    (∀ fg : Bool, run fg 2 [.manage 1, .unmanage 0] (init fg)
        = .ok { clients := [], sel := 0, lastsel := -1, nextfocus := fg }) ∧
    (∀ fg : Bool, run fg 2 [.manage 1, .manage 2, .move 1, .unmanage 0] (init fg)
        = .ok { clients := [1], sel := 1, lastsel := -1, nextfocus := fg }) := by
  constructor <;> intro fg <;> cases fg <;> rfl

/-- C2 (handle uniqueness), evaluated on the code, for either value of
`foreground`: `createnotify` for window `1` followed by `maprequest` for the
same window registers it twice, because `maprequest` calls `manage` exactly
when the window is already a client. -/
theorem C2_maprequest_duplicates_handle :
    ∀ fg : Bool,
      (dispatch fg 0 [.createnotify 1, .maprequest 1] (init fg)).clients = [1, 1] ∧
      ¬ (dispatch fg 0 [.createnotify 1, .maprequest 1] (init fg)).clients.Nodup := by
  intro fg
  cases fg <;> exact ⟨rfl, by decide⟩

/-- C3 (registry ordering): `manage w` turns the registry `L` into `w :: L`;
`unmanage c` erases position `c` of `L` and keeps the order of the others, in
each of its three branches (and leaves `L` alone for a stale `c`); hence after
any sequence of insertions and removals the registry is the list obtained by
putting insertions at the front and erasing removed positions. -/
theorem C3_registry_ordering (fg : Bool) (s : State) :
    (∀ w : Window, (manage fg w s).clients = w :: s.clients) ∧
    (∀ c : Int, (unmanage c s).clients
        = if c < 0 then s.clients else s.clients.eraseIdx c.toNat) ∧
    (∀ ops : List RegOp, (runReg fg ops s).clients = specOrder ops s.clients) :=
  ⟨fun w => manage_clients fg w s, fun c => unmanage_clients c s,
   fun ops => runReg_clients fg ops s⟩

/-- C4, as stated, fails: with registry `[1, 2, 3]`, `sel = 0` and
`lastsel = 2`, `unmanage 0` leaves `[2, 3]` and selects slot `1`, the client
`3` that `lastsel` pointed to, not the client `2` that followed the removed
one; and removing the only client leaves `sel = 0` rather than `-1`. -/
theorem C4_counterexample :
    (unmanage 0 ⟨[1, 2, 3], 0, 2, true⟩).clients = [2, 3] ∧
    selected (unmanage 0 ⟨[1, 2, 3], 0, 2, true⟩) = some 3 ∧
    entry ⟨[1, 2, 3], 0, 2, true⟩ (0 + 1) = some 2 ∧
    selected (unmanage 0 ⟨[1, 2, 3], 0, 2, true⟩)
      ≠ entry ⟨[1, 2, 3], 0, 2, true⟩ (0 + 1) ∧
    (unmanage 0 ⟨[1], 0, -1, true⟩).sel ≠ -1 := by
  decide

/-- C4 (removal reselection, amended): let `sel` be valid and `unmanage sel`
be applied.  If `lastsel` is unset (or equal to `sel`): when `sel` was not the
last index it keeps its value and now denotes the client that followed the
removed one; when `sel` was the last index and `n ≥ 2` the new last client is
selected; when `n = 1` the registry becomes empty.  If `lastsel` is another
valid index, the client that `lastsel` denoted is selected instead. -/
theorem C4_removal_reselection (s : State)
    (hsel0 : 0 ≤ s.sel) (hsel1 : s.sel < s.nclients) :
    (unmanage s.sel s).clients = s.clients.eraseIdx s.sel.toNat ∧
    ((s.lastsel = -1 ∨ s.lastsel = s.sel) →
      (s.sel < s.nclients - 1 →
        (unmanage s.sel s).sel = s.sel ∧
        selected (unmanage s.sel s) = entry s (s.sel + 1)) ∧
      (s.sel = s.nclients - 1 → 2 ≤ s.nclients →
        (unmanage s.sel s).sel = (unmanage s.sel s).nclients - 1 ∧
        selected (unmanage s.sel s) = entry s (s.nclients - 2)) ∧
      (s.nclients = 1 → (unmanage s.sel s).clients = [])) ∧
    (0 ≤ s.lastsel → s.lastsel < s.nclients → s.lastsel ≠ s.sel →
      selected (unmanage s.sel s) = entry s s.lastsel) := by
  have hcl : (unmanage s.sel s).clients = s.clients.eraseIdx s.sel.toNat := by
    rw [unmanage_clients_valid s.sel s hsel0 hsel1]
    exact removeAt_eq_eraseIdx s.clients s.sel hsel0 hsel1
  obtain ⟨l, sel, lastsel, nf⟩ := s
  simp only [State.nclients] at hsel0 hsel1 hcl ⊢
  refine ⟨hcl, ?_, ?_⟩
  · intro hlast
    have hs := unmanage_sel_of_no_lastsel l sel lastsel nf hsel0 hsel1 hlast
    refine ⟨?_, ?_, ?_⟩
    · intro hlt
      have hs1 : (unmanage sel ⟨l, sel, lastsel, nf⟩).sel = sel := by
        rw [hs, if_neg (by omega)]
      refine ⟨hs1, ?_⟩
      rw [selected_eq_entry, hs1, entry_eq _ _ hsel0, entry_eq _ _ (by omega), hcl,
        List.getElem?_eraseIdx_of_ge _ _ _ (le_refl _)]
      have : (sel + 1).toNat = sel.toNat + 1 := by omega
      simp [this]
    · intro hlastidx h2
      have hs1 : (unmanage sel ⟨l, sel, lastsel, nf⟩).sel = (l.length : Int) - 2 := by
        rw [hs, if_pos ⟨hlastidx, h2⟩]
      have hlen : ((l.eraseIdx sel.toNat).length : Int) = (l.length : Int) - 1 := by
        rw [List.length_eraseIdx_of_lt (by omega)]
        omega
      refine ⟨by rw [hs1, hcl, hlen]; omega, ?_⟩
      rw [selected_eq_entry, hs1, entry_eq _ _ (by omega), entry_eq _ _ (by omega), hcl,
        List.getElem?_eraseIdx_of_lt _ _ _ (by omega)]
    · intro h1
      rw [hcl]
      have hz : sel.toNat = 0 := by omega
      rw [hz]
      match l, h1 with
      | [_], _ => rfl
  · intro hl0 hl1 hne
    have hs := unmanage_sel_of_lastsel l sel lastsel nf hsel0 hsel1 hl0 hl1 hne
    rw [selected_eq_entry, hs, entry_eq _ _ hl0]
    by_cases hgt : lastsel > sel
    · rw [if_pos hgt, entry_eq _ _ (by omega), hcl,
        List.getElem?_eraseIdx_of_ge _ _ _ (by omega)]
      have : (lastsel - 1).toNat + 1 = lastsel.toNat := by omega
      rw [this]
    · rw [if_neg hgt, entry_eq _ _ hl0, hcl,
        List.getElem?_eraseIdx_of_lt _ _ _ (by omega)]

/-- Witness for C4: `[1, 2, 3]` with `sel = 0` and no `lastsel`. -/
theorem C4_removal_reselection_witness :
    (unmanage 0 ⟨[1, 2, 3], 0, -1, true⟩).clients = [2, 3] ∧
    (unmanage 0 ⟨[1, 2, 3], 0, -1, true⟩).sel = 0 ∧
    selected (unmanage 0 ⟨[1, 2, 3], 0, -1, true⟩) = some 2 := by
  have h := C4_removal_reselection ⟨[1, 2, 3], 0, -1, true⟩ (by decide) (by decide)
  have h1 := (h.2.1 (Or.inl rfl)).1 (by decide)
  exact ⟨h.1, h1.1, h1.2⟩

/-- C5 (rotate wrap-around): on a registry of `n ≥ 1` clients with a valid
`sel`, and with fuel for two loop tests, `rotate(+1)` applied `n` times
returns and yields `sel` again, and `rotate(+1)` then `rotate(-1)`, as well as
`rotate(-1)` then `rotate(+1)`, return and leave `sel` (and the registry)
unchanged. -/
theorem C5_rotate_wraparound (s : State) (fuel : Nat)
    (hn : 1 ≤ s.nclients) (hsel0 : 0 ≤ s.sel) (hsel1 : s.sel < s.nclients)
    (hfuel : 2 ≤ fuel) :
    (∃ s1, rotateTimes fuel 1 s.clients.length s = .ok s1 ∧
      s1.sel = s.sel ∧ s1.clients = s.clients) ∧
    (∃ s1 s2, rotate fuel 1 s = .ok s1 ∧ rotate fuel (-1) s1 = .ok s2 ∧
      s2.sel = s.sel ∧ s2.clients = s.clients) ∧
    (∃ s1 s2, rotate fuel (-1) s = .ok s1 ∧ rotate fuel 1 s1 = .ok s2 ∧
      s2.sel = s.sel ∧ s2.clients = s.clients) := by
  have hself : s.sel % s.nclients = s.sel := Int.emod_eq_of_lt hsel0 hsel1
  refine ⟨?_, ?_, ?_⟩
  · obtain ⟨s1, h1, h2, h3⟩ := rotateTimes_unit fuel hfuel s.clients.length s hsel0 hsel1
    refine ⟨s1, h1, ?_, h3⟩
    rw [h2]
    have : (s.clients.length : Int) = s.nclients := rfl
    rw [this, Int.add_emod_self, hself]
  · obtain ⟨s1, h1, h2, h3⟩ := rotate_unit fuel 1 s hsel0 hsel1 hfuel (Or.inl rfl)
    have hb := emod_bounds (s.sel + 1) s.nclients (by omega)
    have hn1 : s1.nclients = s.nclients := by simp [State.nclients, h3]
    obtain ⟨s2, h4, h5, h6⟩ := rotate_unit fuel (-1) s1 (by omega) (by omega) hfuel (Or.inr rfl)
    refine ⟨s1, s2, h1, h4, ?_, by rw [h6, h3]⟩
    rw [h5, hn1, h2, Int.emod_add_emod]
    have : s.sel + 1 + -1 = s.sel := by ring
    rw [this, hself]
  · obtain ⟨s1, h1, h2, h3⟩ := rotate_unit fuel (-1) s hsel0 hsel1 hfuel (Or.inr rfl)
    have hb := emod_bounds (s.sel + -1) s.nclients (by omega)
    have hn1 : s1.nclients = s.nclients := by simp [State.nclients, h3]
    obtain ⟨s2, h4, h5, h6⟩ := rotate_unit fuel 1 s1 (by omega) (by omega) hfuel (Or.inl rfl)
    refine ⟨s1, s2, h1, h4, ?_, by rw [h6, h3]⟩
    rw [h5, hn1, h2, Int.emod_add_emod]
    have : s.sel + -1 + 1 = s.sel := by ring
    rw [this, hself]

/-- Witness for C5: three clients, the middle one selected. -/
theorem C5_rotate_wraparound_witness :
    ∃ s1, rotateTimes 2 1 3 ⟨[1, 2, 3], 1, -1, true⟩ = .ok s1 ∧ s1.sel = 1 :=
  let h := C5_rotate_wraparound ⟨[1, 2, 3], 1, -1, true⟩ 2
    (by decide) (by decide) (by decide) (by decide)
  match h.1 with
  | ⟨s1, h1, h2, _⟩ => ⟨s1, h1, h2⟩

/-- C8 (rotate target index): on a registry of `n ≥ 1` clients with a valid
`sel`, `rotate(step)` for a non-zero `step` returns (fuel above `|step|` is
enough for the two loops) and selects exactly `((sel + step) % n + n) % n` in
C arithmetic, which is the mathematical modulus of `sel + step` by `n`;
`lastsel` becomes the old `sel` when the index changes and the registry is
untouched. -/
theorem C8_rotate_target (s : State) (fuel : Nat) (i : Int)
    (hn : 1 ≤ s.nclients) (hsel0 : 0 ≤ s.sel) (hsel1 : s.sel < s.nclients)
    (hi : i ≠ 0) (hfuel : i.natAbs < fuel) :
    ∃ s1, rotate fuel i s = .ok s1 ∧
      s1.sel = Int.tmod (Int.tmod (s.sel + i) s.nclients + s.nclients) s.nclients ∧
      s1.sel = (s.sel + i) % s.nclients ∧
      s1.lastsel = (if s1.sel ≠ s.sel then s.sel else s.lastsel) ∧
      s1.clients = s.clients ∧ s1.nextfocus = s.nextfocus := by
  have hb := emod_bounds (s.sel + i) s.nclients (by omega)
  have hw := wrap_step s.nclients fuel s.sel i hsel0 hsel1 hfuel
  refine ⟨_, rotate_valid fuel i s hsel0 hi hw, ?_⟩
  rw [focus_valid _ s hb.1 hb.2, tmod_formula _ _ (by omega)]
  refine ⟨rfl, rfl, ?_, rfl, rfl⟩
  simp only []
  by_cases h : s.sel = (s.sel + i) % s.nclients
  · rw [if_neg (by simpa using h), if_neg (by simpa using h.symm)]
  · rw [if_pos h, if_pos (by simpa using fun h2 => h h2.symm)]

/-- Witness for C8: registry `[1, 2, 3]` with `sel = 1`; `rotate(+1)` selects
`2` and a second `rotate(+1)` wraps to `0`. -/
theorem C8_rotate_target_witness :
    (∃ s1, rotate 2 1 ⟨[1, 2, 3], 1, -1, true⟩ = .ok s1 ∧ s1.sel = 2) ∧
    (∃ s2, rotate 2 1 ⟨[1, 2, 3], 2, 1, true⟩ = .ok s2 ∧ s2.sel = 0) :=
  ⟨match C8_rotate_target ⟨[1, 2, 3], 1, -1, true⟩ 2 1
      (by decide) (by decide) (by decide) (by decide) (by decide) with
    | ⟨s1, h1, _, h3, _⟩ => ⟨s1, h1, by rw [h3]; decide⟩,
   match C8_rotate_target ⟨[1, 2, 3], 2, 1, true⟩ 2 1
      (by decide) (by decide) (by decide) (by decide) (by decide) with
    | ⟨s2, h1, _, h3, _⟩ => ⟨s2, h1, by rw [h3]; decide⟩⟩


/-- C6 (movetab round trip): on a registry of `n ≥ 1` clients with a valid
`sel`, for every integer `k` (and fuel above `|k|`), `movetab(k)` returns and
`movetab(-k)` applied to its result returns the original state: the same order
of clients and the same `sel`. -/
theorem C6_movetab_roundtrip (s : State) (fuel : Nat) (k : Int)
    (hn : 1 ≤ s.nclients) (hsel0 : 0 ≤ s.sel) (hsel1 : s.sel < s.nclients)
    (hfuel : k.natAbs < fuel) :
    ∃ s1, movetab fuel k s = .ok s1 ∧ movetab fuel (-k) s1 = .ok s := by
  by_cases hk : k = 0
  · subst hk
    refine ⟨s, ?_, ?_⟩ <;> simp [movetab]
  · obtain ⟨new, cur, hnew, hcur, hm⟩ := movetab_valid fuel k s hsel0 hsel1 hk hfuel
    have hb := emod_bounds (s.sel + k) s.nclients (by omega)
    obtain ⟨l, sel, lastsel, nf⟩ := s
    simp only [State.nclients] at hn hsel0 hsel1 hnew hcur hm hb
    refine ⟨_, hm, ?_⟩
    have hlen : ((((l.set ((sel + k) % (l.length : Int)).toNat cur).set sel.toNat new).length
        : Nat) : Int) = (l.length : Int) := by
      simp
    have hback : ((sel + k) % (l.length : Int) + -k) % (l.length : Int) = sel := by
      rw [Int.emod_add_emod]
      have : sel + k + -k = sel := by ring
      rw [this, Int.emod_eq_of_lt hsel0 hsel1]
    obtain ⟨new2, cur2, hnew2, hcur2, hm2⟩ := movetab_valid fuel (-k)
      ⟨(l.set ((sel + k) % (l.length : Int)).toNat cur).set sel.toNat new,
        (sel + k) % (l.length : Int), lastsel, nf⟩
      hb.1 (by simp only [State.nclients, hlen]; exact hb.2) (by omega)
      (by rw [Int.natAbs_neg]; exact hfuel)
    simp only [State.nclients, hlen, hback] at hnew2 hcur2 hm2
    rw [hm2]
    have hseli : sel.toNat < l.length := by omega
    have hci : ((sel + k) % (l.length : Int)).toNat < l.length := by omega
    have e1 : new2 = new := by
      simp [List.getElem?_set, hseli] at hnew2
      exact hnew2.symm
    have e2 : cur2 = cur := by
      simp only [List.getElem?_set, List.length_set] at hcur2
      by_cases hsame : sel.toNat = ((sel + k) % (l.length : Int)).toNat
      · rw [if_pos hsame] at hcur2
        simp [hci] at hcur2
        rw [← hsame, hcur] at hnew
        cases hnew
        exact hcur2.2.symm
      · rw [if_neg hsame] at hcur2
        simp [hci] at hcur2
        exact hcur2.symm
    subst e1 e2
    have hsw := swap_swap l sel.toNat ((sel + k) % (l.length : Int)).toNat cur2 new2 hcur hnew
    simp only [hsw]

/-- Witness for C6: `[1, 2, 3]`, first tab selected, moved by five. -/
theorem C6_movetab_roundtrip_witness :
    ∃ s1, movetab 6 5 ⟨[1, 2, 3], 0, -1, true⟩ = .ok s1 ∧
      movetab 6 (-5) s1 = .ok ⟨[1, 2, 3], 0, -1, true⟩ :=
  C6_movetab_roundtrip ⟨[1, 2, 3], 0, -1, true⟩ 6 5
    (by decide) (by decide) (by decide) (by decide)


/-- C7, as stated, fails: with `W = 300`, `T = 100`, five clients, the last one
selected and indicators of width `10`, `drawbar` draws tabs `2, 3, 4` with
widths `100, 100, 190`; they sum to `390 > 300` and the selected tab spans
`[210, 400]`, past the right edge of the bar. -/
theorem C7_counterexample :
    drawbar 100 10 10 300 5 5 4
      = .ok { after := false, before := true,
              tabs := [⟨2, 10, 100⟩, ⟨3, 110, 100⟩, ⟨4, 210, 190⟩] } ∧
    Bar.tabsWidth ⟨false, true, [⟨2, 10, 100⟩, ⟨3, 110, 100⟩, ⟨4, 210, 190⟩]⟩ = 390 ∧
    ¬ ((390 : Int) ≤ 300) ∧ ¬ ((210 : Int) + 190 ≤ 300) := by
  refine ⟨by rfl, by rfl, by decide, by decide⟩

/-- C7 (layout fitting, amended): for `n ≥ 1` clients, a valid `sel`,
`W ≥ 0`, `T > 0` and non-negative indicator widths, `drawbar` returns and
every tab it draws starts inside the bar (`0 ≤ dc.x < W`) with width at least
`T`; and whenever all tabs fit (`n * T ≤ W`) it draws all `n` tabs, their
widths sum to exactly `W`, and the selected tab is drawn with its region
`[dc.x, dc.x + dc.w]` inside `[0, W]`. -/
theorem C7_layout_fitting (T b a W n sel : Int) (fuel : Nat)
    (hn : 1 ≤ n) (hsel0 : 0 ≤ sel) (hsel1 : sel < n) (hW : 0 ≤ W) (hT : 0 < T)
    (hb : 0 ≤ b) (ha : 0 ≤ a) (hfuel : n.toNat < fuel) :
    ∃ bar, drawbar T b a W fuel n sel = .ok bar ∧
      (∀ t ∈ bar.tabs, 0 ≤ t.x ∧ t.x < W ∧ T ≤ t.w) ∧
      (n * T ≤ W →
        bar.tabsWidth = W ∧ (bar.tabs.length : Int) = n ∧
        (∃ t ∈ bar.tabs, t.c = sel) ∧
        ∀ t ∈ bar.tabs, t.c = sel → 0 ≤ t.x ∧ t.x + t.w ≤ W) := by
  have hsel : ¬ sel < 0 := by omega
  by_cases hfit : n * T ≤ W
  · have hg : getfirsttab T W fuel n sel = .ok 0 := by
      unfold getfirsttab
      rw [if_neg hsel, if_neg (by omega)]
    obtain ⟨tabs, htabs, hsum, hlen, hselt, hex⟩ :=
      drawTabs_fit_upto T W n sel hT hfit hsel1 fuel 0 (le_refl 0) hsel0 (by omega)
    obtain ⟨tabs2, htabs2, hall⟩ :=
      drawTabs_ok T n sel n W hT fuel 0 (0 * T) (by omega) (by omega)
    rw [htabs] at htabs2
    cases htabs2
    have hd := drawbar_of_firsttab T b a W fuel n sel 0 (by omega) (le_refl 0) hg tabs
      (by
        have h1 : ¬ n * T > W := by omega
        have h2 : ¬ (0 : Int) > 0 := by omega
        simp only [sub_zero, if_neg h1, if_neg h2]
        simpa using htabs)
    refine ⟨_, hd, ?_, fun _ => ⟨hsum.trans (by ring), by simpa using hlen, hex, ?_⟩⟩
    · intro t ht
      have := hall t ht
      exact ⟨by omega, this.2.1, this.2.2⟩
    · intro t ht hts
      obtain ⟨hx, hw⟩ := hselt t ht hts
      have h1 : 0 ≤ sel * T := mul_nonneg hsel0 (by omega)
      have h2 : sel * T ≤ (n - 1) * T := mul_le_mul_of_nonneg_right (by omega) (by omega)
      rw [hx, hw]
      constructor
      · exact h1
      · omega
  · obtain ⟨fc, hg, hfc0, hfc1⟩ : ∃ fc, getfirsttab T W fuel n sel = .ok fc ∧
        0 ≤ fc ∧ fc ≤ 0 + sel := by
      unfold getfirsttab
      rw [if_neg hsel, if_pos (by omega)]
      exact firsttabLoop_ok T W hW fuel sel n 0 hsel0 (by omega)
    have hx0 : 0 ≤ (if fc > 0 then b else 0) := by
      split_ifs <;> omega
    have hwid : (if (n - fc) * T > W then W - a else W) - (if fc > 0 then b else 0) ≤ W := by
      split_ifs <;> omega
    obtain ⟨tabs, htabs, hall⟩ :=
      drawTabs_ok T n sel (n - fc)
        ((if (n - fc) * T > W then W - a else W) - (if fc > 0 then b else 0)) hT
        fuel fc (if fc > 0 then b else 0) hx0 (by omega)
    have hd := drawbar_of_firsttab T b a W fuel n sel fc (by omega) hfc0 hg tabs htabs
    refine ⟨_, hd, ?_, fun h => absurd h hfit⟩
    intro t ht
    have := hall t ht
    exact ⟨by omega, by omega, this.2.2⟩

/-- Witness for C7: three tabs of nominal width `100` in a bar of `350`. -/
theorem C7_layout_fitting_witness :
    ∃ bar, drawbar 100 10 10 350 4 3 1 = .ok bar ∧ bar.tabsWidth = 350 :=
  match C7_layout_fitting 100 10 10 350 3 1 4 (by decide) (by decide) (by decide)
      (by decide) (by decide) (by decide) (by decide) (by decide) with
  | ⟨bar, h1, _, h3⟩ => ⟨bar, h1, (h3 (by decide)).1⟩

/-- C9 (overflow with the last tab selected): for `0 < T ≤ W` and
`n * T > W`, with the selection at the last index `n - 1` and fuel `n`,
`getfirsttab` returns a first-visible index `fc` with `0 < fc ≤ n - 1` and
`(n - fc) * T ≤ W`, and `drawbar` returns having drawn the left indicator and
no right indicator. -/
theorem C9_overflow_last_selected (T b a W n : Int) (fuel : Nat)
    (hT : 0 < T) (hTW : T ≤ W) (hover : n * T > W) (hfuel : n.toNat ≤ fuel) :
    ∃ fc, getfirsttab T W fuel n (n - 1) = .ok fc ∧
      0 < fc ∧ fc ≤ n - 1 ∧ (n - fc) * T ≤ W ∧
      ∃ bar, drawbar T b a W fuel n (n - 1) = .ok bar ∧
        bar.before = true ∧ bar.after = false := by
  have hn : 1 ≤ n := by
    by_contra hlt
    have h0 : n * T ≤ 0 * T := mul_le_mul_of_nonneg_right (by omega) (by omega)
    omega
  obtain ⟨fc, hloop, h1, h2, h3, h4⟩ :=
    firsttabLoop_last T W hT hTW fuel n 0 hn hfuel
  have hg : getfirsttab T W fuel n (n - 1) = .ok fc := by
    unfold getfirsttab
    rw [if_neg (by omega), if_pos hover]
    exact hloop
  have hfcpos : 0 < fc := h4 hover
  have h3b : (n - fc) * T ≤ W := by simpa using h3
  refine ⟨fc, hg, hfcpos, by omega, h3b, ?_⟩
  obtain ⟨tabs, htabs⟩ :=
    drawTabs_returns T n (n - 1) (n - fc)
      ((if (n - fc) * T > W then W - a else W) - (if fc > 0 then b else 0))
      fuel fc (if fc > 0 then b else 0) (by omega)
  have hd := drawbar_of_firsttab T b a W fuel n (n - 1) fc (by omega) (by omega) hg tabs htabs
  refine ⟨_, hd, ?_, ?_⟩
  · simpa using hfcpos
  · simpa using h3b

/-- Witness for C9: `W = 300`, `T = 100`, five clients, the last one selected. -/
theorem C9_overflow_last_selected_witness :
    ∃ fc, getfirsttab 100 300 5 5 (5 - 1) = .ok fc ∧ 0 < fc ∧ fc ≤ 5 - 1 ∧
      (5 - fc) * 100 ≤ 300 ∧
      ∃ bar, drawbar 100 10 10 300 5 5 (5 - 1) = .ok bar ∧
        bar.before = true ∧ bar.after = false :=
  C9_overflow_last_selected 100 10 10 300 5 5 (by decide) (by decide) (by decide) (by decide)

/-- C10 (previous-index invariant), evaluated on the code, for either value
of `foreground`: after `manage 1, manage 2, manage 3, move 1, move 2,
unmanage 0` two clients are left and `lastsel` is `2`, not a valid index; and
after `manage 1, manage 2, move 1, move 0, unmanage 0`, which moves the focus
to another client, `lastsel` equals `sel`. -/
theorem C10_lastsel_stale_after_unmanage :
    (∀ fg : Bool,
      run fg 2 [.manage 1, .manage 2, .manage 3, .move 1, .move 2, .unmanage 0] (init fg)
        = .ok { clients := [2, 1], sel := 0, lastsel := 2, nextfocus := fg }) ∧
    (∀ fg : Bool,
      run fg 2 [.manage 1, .manage 2, .move 1, .move 0, .unmanage 0] (init fg)
        = .ok { clients := [1], sel := 0, lastsel := 0, nextfocus := fg }) := by
  constructor <;> intro fg <;> cases fg <;> rfl

/-- C11 (selection identity across removal of another client), evaluated on
the code.  The state `[1, 2, 3]` with `sel = 1` and `lastsel` unset is
reachable; there `unmanage 0` removes client `1` and leaves `sel = 1`, which
now denotes client `3` instead of the client `2` selected before.  Likewise
with `sel = 0`, `unmanage 2` of the last client moves the selection from
client `1` to client `2`. -/
theorem C11_selection_lost_on_unmanage_other :
    (∀ fg : Bool,
      run fg 2 [.manage 3, .manage 2, .manage 9, .manage 1, .move 2, .unmanage 1] (init fg)
        = .ok ⟨[1, 2, 3], 1, -1, fg⟩) ∧
    (∀ nf : Bool,
      selected ⟨[1, 2, 3], 1, -1, nf⟩ = some 2 ∧
      unmanage 0 ⟨[1, 2, 3], 1, -1, nf⟩ = ⟨[2, 3], 1, -1, nf⟩ ∧
      selected (unmanage 0 ⟨[1, 2, 3], 1, -1, nf⟩) = some 3) ∧
    (∀ nf : Bool,
      selected ⟨[1, 2, 3], 0, -1, nf⟩ = some 1 ∧
      unmanage 2 ⟨[1, 2, 3], 0, -1, nf⟩ = ⟨[1, 2], 1, -1, nf⟩ ∧
      selected (unmanage 2 ⟨[1, 2, 3], 0, -1, nf⟩) = some 2) := by
  refine ⟨?_, ?_, ?_⟩ <;> intro b <;> cases b <;> first | rfl | decide

/-- C12 (previous is cleared with its client): for every registry, every
`sel` and every valid index `c` with `lastsel = c`, after `unmanage c`
`lastsel` is `-1`; a following `rotate(0)` therefore returns without changing
anything, whatever the fuel. -/
theorem C12_lastsel_cleared_with_client (s : State) (c : Int)
    (hc0 : 0 ≤ c) (hc1 : c < s.nclients) (hl : s.lastsel = c) :
    (unmanage c s).lastsel = -1 ∧
    ∀ fuel : Nat, rotate fuel 0 (unmanage c s) = .ok (unmanage c s) := by
  obtain ⟨l, sel, lastsel, nf⟩ := s
  simp only [State.nclients] at hc1
  simp only [] at hl
  subst hl
  have h := unmanage_lastsel_of_eq l sel lastsel nf hc0 hc1
  exact ⟨h, fun fuel => rotate_zero_of_no_lastsel fuel _ h⟩

/-- Witness for C12: `[1, 2, 3]` with the first tab selected and the last tab
as `lastsel`; the last tab is removed. -/
theorem C12_lastsel_cleared_with_client_witness :
    (unmanage 2 ⟨[1, 2, 3], 0, 2, true⟩).lastsel = -1 ∧
    ∀ fuel : Nat, rotate fuel 0 (unmanage 2 ⟨[1, 2, 3], 0, 2, true⟩)
      = .ok (unmanage 2 ⟨[1, 2, 3], 0, 2, true⟩) :=
  C12_lastsel_cleared_with_client ⟨[1, 2, 3], 0, 2, true⟩ 2 (by decide) (by decide) rfl

/-- C13 (termination of the wrap-around loops), evaluated on the code, for
either value of `foreground`: `manage 1, unmanage 0` leaves `nclients = 0`
with `sel = 0`, and from there `rotate(1)` and `movetab(1)` do not return for
any amount of fuel, because `while(c >= nclients) c -= nclients;` subtracts
zero forever. -/
theorem C13_wrap_loop_diverges_on_empty :
    (∀ (fg : Bool) (fuel : Nat),
      run fg fuel [.manage 1, .unmanage 0, .rotate 1] (init fg) = .error .outOfFuel) ∧
    (∀ (fg : Bool) (fuel : Nat),
      run fg fuel [.manage 1, .unmanage 0, .movetab 1] (init fg) = .error .outOfFuel) := by
  constructor
  · intro fg fuel
    have h : run fg fuel [.manage 1, .unmanage 0, .rotate 1] (init fg)
        = rotate fuel 1 ⟨[], 0, -1, fg⟩ := by
      cases fg <;> simp [run, step, manage, unmanage, focus, init, State.nclients, removeAt,
        fixLastsel, shiftSel, clampSel, refocus] <;> split <;> simp_all
    rw [h]
    unfold rotate
    simp [State.nclients, wrap_zero]
  · intro fg fuel
    have h : run fg fuel [.manage 1, .unmanage 0, .movetab 1] (init fg)
        = movetab fuel 1 ⟨[], 0, -1, fg⟩ := by
      cases fg <;> simp [run, step, manage, unmanage, focus, init, State.nclients, removeAt,
        fixLastsel, shiftSel, clampSel, refocus] <;> split <;> simp_all
    rw [h]
    unfold movetab
    simp [State.nclients, wrap_zero]


end Tabbed
